import Mathlib

/-!
Shallow embedding of the PMC (Probabilistic Multiplicity Counting) sketch
from `pmc.go`, together with theorems settling the specification claims.

Modelling conventions:
* Go `uint` values are modelled as `ℕ`; 64-bit wraparound is written as
  `% 2 ^ 64` where the code relies on it.
* Go `float64` fields that only ever hold exact small integers or rationals
  (`l`, `m`, `w`, the cached fill ratio `p`) are modelled as `ℕ` / `ℚ`;
  the transcendental estimator arithmetic (`math.Log`, `math.Pow`) is
  modelled over `ℝ` with `Real.log` and real exponentiation.
* The external 64-bit hash `farm.Hash64WithSeeds` is a pure deterministic
  function of the flow bytes and the two seeds; it is abstracted as a
  parameter `hash : List ℕ → ℕ → ℕ → ℕ` of every operation that addresses
  the bitmap.
* The two pseudo-random draws of `Increment` (one `rnd.Next()` feeding
  `rand`, one feeding `georand`) and the uniform `random.Float64()` draw
  are passed explicitly as arguments `rv gv : ℕ` and `u : ℚ`.
-/

namespace PMC

/-- A flow key: an opaque byte sequence. -/
abbrev Flow := List ℕ

/-- The type of the 64-bit hash used for bit addressing. -/
abbrev HashFn := Flow → ℕ → ℕ → ℕ

/-- The PMC sketch state (`type Sketch struct` in the source).
`l`, `m`, `w` are the dimensions, `bitmap` the flat bit array,
`p` the cached fill ratio and `n` the total observation count. -/
structure Sketch where
  l : ℕ
  m : ℕ
  w : ℕ
  bitmap : ℕ → Bool
  p : ℚ
  n : ℕ

/-- One step of the `xorshift64star` generator: the updated 64-bit state. -/
def xorshiftStep (s : ℕ) : ℕ :=
  let s1 := (Nat.xor s (s / 2 ^ 12)) % 2 ^ 64
  let s2 := (Nat.xor s1 (s1 * 2 ^ 25)) % 2 ^ 64
  (Nat.xor s2 (s2 / 2 ^ 27)) % 2 ^ 64

/-- The value returned by `rnd.Next()`: the updated state times the
xorshift64star multiplier, reduced to 64 bits. -/
def xorshiftNext (s : ℕ) : ℕ :=
  (xorshiftStep s * 2685821657736338717) % 2 ^ 64

/-- Count of leading zero bits of a value regarded as a 64-bit word
(`bits.Clz`): `64` for zero, otherwise `63 - ⌊log₂ v⌋`. `Nat.size v` is
the number of significant bits of `v`. -/
def clz64 (v : ℕ) : ℕ := 64 - Nat.size (v % 2 ^ 64)

/-- Function `georand` from the source, applied to a raw 64-bit draw `v`
(the code computes `v = rnd.Next()` and xors it with `0`, a no-op):
the leading-zero count of `v`, replaced by `w - 1` whenever it
reaches `w`. -/
def georand (w : ℕ) (v : ℕ) : ℕ :=
  let res := clz64 v
  if res ≥ w then w - 1 else res

/-- Function `rand` from the source: a 64-bit draw reduced modulo `m`. -/
def randMod (m : ℕ) (v : ℕ) : ℕ := (v % 2 ^ 64) % m

/-- Function `getPos`: hash the flow with the row and column as the two seeds and
reduce modulo `l`. -/
def getPos (hash : HashFn) (s : Sketch) (f : Flow) (i j : ℕ) : ℕ :=
  hash f i j % s.l

/-- Constructor `New`: build a sketch after validating that every dimension is
positive; the bitmap starts all-zero, `n = 0`, and the cached fill
ratio is the zero value of its field. -/
def New (l m w : ℕ) : Except String Sketch :=
  if l = 0 then .error "Expected l > 0, got 0"
  else if m = 0 then .error "Expected m > 0, got 0"
  else if w = 0 then .error "Expected w > 0, got 0"
  else .ok { l := l, m := m, w := w, bitmap := fun _ => false, p := 0, n := 0 }

/-- Constructor `NewForMaxFlows`: derives `l = maxFlows * 32` and delegates to `New`
with `m = 256`, `w = 32`. -/
def NewForMaxFlows (maxFlows : ℕ) : Except String Sketch :=
  New (maxFlows * 32) 256 32

/-- Operation `bitmap.Set pos`: the updated bit array. -/
def setBit (b : ℕ → Bool) (pos : ℕ) : ℕ → Bool :=
  fun i => if i = pos then true else b i

/-- Operation `Increment`: invalidate the fill-ratio cache, draw a row (`rv` is the
64-bit draw feeding `rand`) and a column (`gv` the draw feeding
`georand`), bump `n`, then either skip (when the uniform draw `u` falls
below `j / l`) or set the addressed bit. -/
def Increment (hash : HashFn) (s : Sketch) (f : Flow) (rv gv : ℕ) (u : ℚ) :
    Sketch :=
  let s0 := { s with p := 0 }
  let i := randMod s0.m rv
  let j := georand s0.w gv
  let pos := getPos hash s0 f i j
  let s1 := { s0 with n := s0.n + 1 }
  if u < (j : ℚ) / (s1.l : ℚ) then s1
  else { s1 with bitmap := setBit s1.bitmap pos }

/-- Inner loop of `getZSum` for one row: scan the remaining `fuel`
columns starting at column `j`; at the first unset bit return that
column index; if the scan runs out, return `0` (the loop ends without
adding anything). -/
def zRowAux (hash : HashFn) (s : Sketch) (f : Flow) (i : ℕ) :
    ℕ → ℕ → ℕ
  | 0, _ => 0
  | fuel + 1, j =>
    if s.bitmap (getPos hash s f i j) = false then j
    else zRowAux hash s f i fuel (j + 1)

/-- The contribution of row `i` to `z`: the column scan starting at `0`. -/
def zRow (hash : HashFn) (s : Sketch) (f : Flow) (i : ℕ) : ℕ :=
  zRowAux hash s f i s.w 0

/-- Function `getZSum`: the sum of the per-row contributions over all `m` rows. -/
def getZSum (hash : HashFn) (s : Sketch) (f : Flow) : ℕ :=
  ∑ i ∈ Finset.range s.m, zRow hash s f i

/-- Function `getEmptyRows`: the number of rows whose column-0 bit is unset. -/
def getEmptyRows (hash : HashFn) (s : Sketch) (f : Flow) : ℕ :=
  ((Finset.range s.m).filter
    (fun i => s.bitmap (getPos hash s f i 0) = false)).card

/-- The number of set bits among positions `0 .. l-1` (the `ones`
counter of `getP`). -/
def onesCount (s : Sketch) : ℕ :=
  ((Finset.range s.l).filter (fun i => s.bitmap i = true)).card

/-- Function `getP`: the global fill ratio, set bits over `l`. -/
def getP (s : Sketch) : ℚ := (onesCount s : ℚ) / (s.l : ℚ)

/-- Function `GetFillRate`: the fill ratio as a percentage. -/
def GetFillRate (s : Sketch) : ℚ := getP s * 100

end PMC

namespace PMC

/-- Function `qk` from the source, with the loop bound `k` as a natural number:
the running product of `1 - (1 - 2⁻ⁱ)ⁿ * (1 - p)` for `i = 1 .. k`,
built up by recursion exactly as the loop accumulates it. -/
noncomputable def qk (k : ℕ) (n p : ℝ) : ℝ :=
  match k with
  | 0 => 1
  | k + 1 => qk k n p * (1 - (1 - (2 : ℝ) ^ (-((k + 1 : ℕ) : ℝ))) ^ n * (1 - p))

/-- Function `getE` from the source: `Σ_{k=1}^{w} k * (qk k - qk (k+1))`,
accumulated by recursion over the loop bound `w`. -/
noncomputable def getE (w : ℕ) (n p : ℝ) : ℝ :=
  match w with
  | 0 => 0
  | w + 1 => getE w n p + ((w + 1 : ℕ) : ℝ) * (qk (w + 1) n p - qk (w + 2) n p)

/-- Function `phi` from the source: `2 ^ E(n, p) / n` with the sketch's `w`. -/
noncomputable def phi (w : ℕ) (n p : ℝ) : ℝ :=
  (2 : ℝ) ^ getE w n p / n

/-- Function `GetEstimate` from the source. The fill ratio actually used is the
cached `s.p` unless the cache is invalid (zero), in which case `getP`
is recomputed. Returns the absolute value of the branch result. -/
noncomputable def GetEstimate (hash : HashFn) (s : Sketch) (f : Flow) : ℝ :=
  let p : ℚ := if s.p = 0 then getP s else s.p
  let k : ℝ := (getEmptyRows hash s f : ℝ)
  let n : ℝ := (s.n : ℝ)
  let m : ℝ := (s.m : ℝ)
  let kp : ℝ := k / (1 - (p : ℝ))
  let e : ℝ :=
    if kp > 0.3 * m then -2 * m * Real.log (kp / m)
    else m * (2 : ℝ) ^ ((getZSum hash s f : ℝ) / m) / phi s.w n (p : ℝ)
  |e|

/-! ### Definitions written from the specification text, for comparison -/

/-- The run length of row `i` as the specification words it: the smallest
column `j` in `0 .. w-1` at which the addressed bit is unset, or `w`
when all `w` columns are set. -/
def specRunLength (hash : HashFn) (s : Sketch) (f : Flow) (i : ℕ) : ℕ :=
  (((List.range s.w).find?
    (fun j => !s.bitmap (getPos hash s f i j))).getD s.w)

/-- The quantity `z` as the specification words it: the sum of the
per-row run lengths over all `m` rows. -/
def specZ (hash : HashFn) (s : Sketch) (f : Flow) : ℕ :=
  ∑ i ∈ Finset.range s.m, specRunLength hash s f i

/-- The run length rule as the code actually implements it: the smallest
unset column, or `0` when all `w` columns of the row are set (a
saturated row contributes nothing to the sum). -/
def amendedRunLength (hash : HashFn) (s : Sketch) (f : Flow) (i : ℕ) : ℕ :=
  (((List.range s.w).find?
    (fun j => !s.bitmap (getPos hash s f i j))).getD 0)

/-- Factor product `qk` as the specification words it:
`Π_{i=1}^{k} (1 - (1 - (1-2^-i)^n) * (1-p))`. -/
noncomputable def specQk (k : ℕ) (n p : ℝ) : ℝ :=
  ∏ i ∈ Finset.Icc 1 k,
    (1 - (1 - (1 - (2 : ℝ) ^ (-(i : ℝ))) ^ n) * (1 - p))

/-- Sum `E(n,p)` as the specification words it, over the spec's `qk`. -/
noncomputable def specE (w : ℕ) (n p : ℝ) : ℝ :=
  ∑ k ∈ Finset.Icc 1 w, (k : ℝ) * (specQk k n p - specQk (k + 1) n p)

/-- Ratio `φ(n,p) = 2^E(n,p) / n` over the spec's `E`. -/
noncomputable def specPhi (w : ℕ) (n p : ℝ) : ℝ :=
  (2 : ℝ) ^ specE w n p / n

/-- The estimator as the specification words it, with `p` the global
fill ratio, `k` the empty-row count, `n` the observation count and `z`
the zero-column sum. -/
noncomputable def specEstimate (hash : HashFn) (s : Sketch) (f : Flow) : ℝ :=
  let p : ℝ := ((getP s : ℚ) : ℝ)
  let k : ℝ := (getEmptyRows hash s f : ℝ)
  let n : ℝ := (s.n : ℝ)
  let m : ℝ := (s.m : ℝ)
  let kp : ℝ := k / (1 - p)
  let e : ℝ :=
    if kp > 0.3 * m then -2 * m * Real.log (kp / m)
    else m * (2 : ℝ) ^ ((getZSum hash s f : ℝ) / m) / specPhi s.w n p
  |e|

/-- Factor product `qk` in closed form with the factor the code computes:
`Π_{i=1}^{k} (1 - (1-2^-i)^n * (1-p))`. -/
noncomputable def amendedQk (k : ℕ) (n p : ℝ) : ℝ :=
  ∏ i ∈ Finset.Icc 1 k,
    (1 - (1 - (2 : ℝ) ^ (-(i : ℝ))) ^ n * (1 - p))

/-- Sum `E(n,p)` in closed form over the amended `qk`. -/
noncomputable def amendedE (w : ℕ) (n p : ℝ) : ℝ :=
  ∑ k ∈ Finset.Icc 1 w, (k : ℝ) * (amendedQk k n p - amendedQk (k + 1) n p)

/-- Ratio `φ(n,p)` over the amended `E`. -/
noncomputable def amendedPhi (w : ℕ) (n p : ℝ) : ℝ :=
  (2 : ℝ) ^ amendedE w n p / n

/-- The estimator with the specification's wording amended only in the
`qk` factor (the power is not complemented before being damped by
`1 - p`). -/
noncomputable def amendedEstimate (hash : HashFn) (s : Sketch) (f : Flow) :
    ℝ :=
  let p : ℝ := ((getP s : ℚ) : ℝ)
  let k : ℝ := (getEmptyRows hash s f : ℝ)
  let n : ℝ := (s.n : ℝ)
  let m : ℝ := (s.m : ℝ)
  let kp : ℝ := k / (1 - p)
  let e : ℝ :=
    if kp > 0.3 * m then -2 * m * Real.log (kp / m)
    else m * (2 : ℝ) ^ ((getZSum hash s f : ℝ) / m) / amendedPhi s.w n p
  |e|

/-! ### Concrete instances used by witnesses and counterexamples -/

/-- A concrete hash: every triple maps to `0`. -/
def hash0 : HashFn := fun _ _ _ => 0

/-- The empty flow key. -/
def flow0 : Flow := []

/-- A tiny sketch whose single bit is set: `l = m = w = 1`. -/
def sketchOne : Sketch :=
  { l := 1, m := 1, w := 1, bitmap := fun _ => true, p := 0, n := 1 }

/-- A sketch with `l = 2`, `m = w = 1`, bit `0` set, invalid cache and
`n = 2` observations. -/
def sketchHalf : Sketch :=
  { l := 2, m := 1, w := 1, bitmap := fun b => b == 0, p := 0, n := 2 }

/-- A fresh sketch as produced by `New 4 2 2`. -/
def sketchFresh : Sketch :=
  { l := 4, m := 2, w := 2, bitmap := fun _ => false, p := 0, n := 0 }

/-- Applying a list of `Increment` calls in order; each list entry
carries the flow key and the three random draws of one call. -/
def applyIncs (hash : HashFn) (s : Sketch) (ops : List (Flow × ℕ × ℕ × ℚ)) :
    Sketch :=
  ops.foldl (fun t o => Increment hash t o.1 o.2.1 o.2.2.1 o.2.2.2) s

/-! ### Helper lemmas -/

/-- Inverting a successful construction: all three dimensions are
positive and the sketch is the fresh literal. -/
lemma New_ok_elim (l m w : ℕ) (s : Sketch) (h : New l m w = .ok s) :
    l ≠ 0 ∧ m ≠ 0 ∧ w ≠ 0 ∧
      s = { l := l, m := m, w := w, bitmap := fun _ => false, p := 0, n := 0 } := by
  unfold New at h
  split_ifs at h with h1 h2 h3
  exact ⟨h1, h2, h3, (Except.ok.injEq _ _).mp h.symm⟩

/-- Operation `Increment` never changes the bit capacity. -/
lemma Increment_l (hash : HashFn) (s : Sketch) (f : Flow) (rv gv : ℕ)
    (u : ℚ) : (Increment hash s f rv gv u).l = s.l := by
  unfold Increment
  dsimp only
  split_ifs <;> rfl

/-- A bit that is set stays set across one `Increment`. -/
lemma Increment_bitmap_mono (hash : HashFn) (s : Sketch) (f : Flow)
    (rv gv : ℕ) (u : ℚ) (b : ℕ) (hb : s.bitmap b = true) :
    (Increment hash s f rv gv u).bitmap b = true := by
  unfold Increment
  dsimp only
  split_ifs
  · exact hb
  · dsimp only [setBit]
    split_ifs
    · rfl
    · exact hb

/-- Counting set bits is monotone under pointwise bit implication when
the capacity is unchanged. -/
lemma onesCount_le_of_le (s t : Sketch) (hl : t.l = s.l)
    (hb : ∀ b, s.bitmap b = true → t.bitmap b = true) :
    onesCount s ≤ onesCount t := by
  unfold onesCount
  rw [hl]
  apply Finset.card_le_card
  intro x hx
  simp only [Finset.mem_filter] at hx ⊢
  exact ⟨hx.1, hb x hx.2⟩

/-- The fill ratio is monotone under pointwise bit implication when the
capacity is unchanged. -/
lemma getP_mono_of_le (s t : Sketch) (hl : t.l = s.l)
    (hb : ∀ b, s.bitmap b = true → t.bitmap b = true) :
    getP s ≤ getP t := by
  unfold getP
  rw [hl]
  rcases Nat.eq_zero_or_pos s.l with h0 | hpos
  · rw [h0]
    simp
  · have hc : (0 : ℚ) < (s.l : ℚ) := by exact_mod_cast hpos
    rw [div_le_div_iff_of_pos_right hc]
    exact_mod_cast onesCount_le_of_le s t hl hb

/-- Setting one bit grows the set-bit count by at most one. -/
lemma onesCount_setBit_le (s : Sketch) (pos : ℕ) :
    onesCount { s with bitmap := setBit s.bitmap pos } ≤ onesCount s + 1 := by
  unfold onesCount setBit
  dsimp only
  have hsub : (Finset.range s.l).filter
        (fun i => (if i = pos then true else s.bitmap i) = true) ⊆
      insert pos ((Finset.range s.l).filter (fun i => s.bitmap i = true)) := by
    intro x hx
    simp only [Finset.mem_filter, Finset.mem_insert] at hx ⊢
    by_cases hxp : x = pos
    · exact Or.inl hxp
    · refine Or.inr ⟨hx.1, ?_⟩
      have hx2 := hx.2
      rwa [if_neg hxp] at hx2
  calc ((Finset.range s.l).filter
        (fun i => (if i = pos then true else s.bitmap i) = true)).card
      ≤ (insert pos
          ((Finset.range s.l).filter (fun i => s.bitmap i = true))).card :=
        Finset.card_le_card hsub
    _ ≤ ((Finset.range s.l).filter (fun i => s.bitmap i = true)).card + 1 :=
        Finset.card_insert_le _ _

/-- One `Increment` adds at most one set bit and exactly one to `n`. -/
lemma Increment_ones_step (hash : HashFn) (t : Sketch) (f : Flow)
    (rv gv : ℕ) (u : ℚ) :
    onesCount (Increment hash t f rv gv u) ≤ onesCount t + 1 ∧
    (Increment hash t f rv gv u).n = t.n + 1 := by
  unfold Increment
  dsimp only
  split_ifs
  · exact ⟨Nat.le_succ _, rfl⟩
  · exact ⟨onesCount_setBit_le _ _, rfl⟩

/-- The column scan of one row returns the first scanned column whose
bit is unset, and `0` when every scanned column is set. -/
lemma zRowAux_eq_find (hash : HashFn) (s : Sketch) (f : Flow) (i : ℕ) :
    ∀ fuel j : ℕ,
      zRowAux hash s f i fuel j =
        (((List.range' j fuel).find?
          (fun j2 => !s.bitmap (getPos hash s f i j2))).getD 0) := by
  intro fuel
  induction fuel with
  | zero => intro j; simp [zRowAux]
  | succ fuel ih =>
    intro j
    rw [List.range'_succ]
    by_cases hb : s.bitmap (getPos hash s f i j) = false
    · rw [List.find?_cons_of_pos _ (by simp [hb])]
      simp [zRowAux, hb]
    · have hb2 : s.bitmap (getPos hash s f i j) = true := by
        cases h : s.bitmap (getPos hash s f i j)
        · exact absurd h hb
        · rfl
      rw [List.find?_cons_of_neg _ (by simp [hb2]), ← ih (j + 1)]
      simp [zRowAux, hb]

/-- A row's contribution to `z` equals the amended run-length rule. -/
lemma zRow_eq_amendedRunLength (hash : HashFn) (s : Sketch) (f : Flow)
    (i : ℕ) : zRow hash s f i = amendedRunLength hash s f i := by
  unfold zRow amendedRunLength
  rw [List.range_eq_range']
  exact zRowAux_eq_find hash s f i s.w 0

/-- Function `GetEstimate` with its local definitions inlined. -/
lemma GetEstimate_eval (hash : HashFn) (s : Sketch) (f : Flow) :
    GetEstimate hash s f =
      |if (getEmptyRows hash s f : ℝ) /
            (1 - (((if s.p = 0 then getP s else s.p) : ℚ) : ℝ)) >
          0.3 * (s.m : ℝ) then
        -2 * (s.m : ℝ) *
          Real.log ((getEmptyRows hash s f : ℝ) /
            (1 - (((if s.p = 0 then getP s else s.p) : ℚ) : ℝ)) / (s.m : ℝ))
      else
        (s.m : ℝ) * (2 : ℝ) ^ ((getZSum hash s f : ℝ) / (s.m : ℝ)) /
          phi s.w (s.n : ℝ)
            (((if s.p = 0 then getP s else s.p) : ℚ) : ℝ)| := rfl

/-- Function `specEstimate` with its local definitions inlined. -/
lemma specEstimate_eval (hash : HashFn) (s : Sketch) (f : Flow) :
    specEstimate hash s f =
      |if (getEmptyRows hash s f : ℝ) / (1 - ((getP s : ℚ) : ℝ)) >
          0.3 * (s.m : ℝ) then
        -2 * (s.m : ℝ) *
          Real.log ((getEmptyRows hash s f : ℝ) /
            (1 - ((getP s : ℚ) : ℝ)) / (s.m : ℝ))
      else
        (s.m : ℝ) * (2 : ℝ) ^ ((getZSum hash s f : ℝ) / (s.m : ℝ)) /
          specPhi s.w (s.n : ℝ) ((getP s : ℚ) : ℝ)| := rfl

/-- Function `amendedEstimate` with its local definitions inlined. -/
lemma amendedEstimate_eval (hash : HashFn) (s : Sketch) (f : Flow) :
    amendedEstimate hash s f =
      |if (getEmptyRows hash s f : ℝ) / (1 - ((getP s : ℚ) : ℝ)) >
          0.3 * (s.m : ℝ) then
        -2 * (s.m : ℝ) *
          Real.log ((getEmptyRows hash s f : ℝ) /
            (1 - ((getP s : ℚ) : ℝ)) / (s.m : ℝ))
      else
        (s.m : ℝ) * (2 : ℝ) ^ ((getZSum hash s f : ℝ) / (s.m : ℝ)) /
          amendedPhi s.w (s.n : ℝ) ((getP s : ℚ) : ℝ)| := rfl

/-- The code's recursive `qk` equals the closed product with the same
factor. -/
lemma qk_eq_amendedQk (k : ℕ) (n p : ℝ) : qk k n p = amendedQk k n p := by
  induction k with
  | zero =>
    unfold qk amendedQk
    simp
  | succ k ih =>
    unfold qk
    rw [ih]
    unfold amendedQk
    rw [Finset.prod_Icc_succ_top (by omega : 1 ≤ k + 1)]

/-- The code's recursive `getE` equals the closed sum over the closed
`qk`. -/
lemma getE_eq_amendedE (w : ℕ) (n p : ℝ) : getE w n p = amendedE w n p := by
  induction w with
  | zero =>
    unfold getE amendedE
    simp
  | succ w ih =>
    unfold getE
    rw [ih, qk_eq_amendedQk, qk_eq_amendedQk]
    unfold amendedE
    rw [Finset.sum_Icc_succ_top (by omega : 1 ≤ w + 1)]

/-- The code's `phi` equals the closed form. -/
lemma phi_eq_amendedPhi (w : ℕ) (n p : ℝ) : phi w n p = amendedPhi w n p := by
  unfold phi amendedPhi
  rw [getE_eq_amendedE]

/-- Real exponentiation by the cast of the natural number two is
squaring. -/
lemma rpow_cast_two (x : ℝ) : x ^ (((2 : ℕ) : ℕ) : ℝ) = x * x := by
  rw [Real.rpow_natCast]
  ring

/-- Evaluation `2 ^ (-1) = 1/2` with the exponent a cast natural. -/
lemma two_rpow_neg_cast_one : (2 : ℝ) ^ (-(((1 : ℕ) : ℕ) : ℝ)) = 1 / 2 := by
  rw [Real.rpow_neg (by norm_num), Real.rpow_natCast]
  norm_num

/-- Evaluation `2 ^ (-2) = 1/4` with the exponent a cast natural. -/
lemma two_rpow_neg_cast_two : (2 : ℝ) ^ (-(((2 : ℕ) : ℕ) : ℝ)) = 1 / 4 := by
  rw [Real.rpow_neg (by norm_num), Real.rpow_natCast]
  norm_num

/-- The closed `qk` at `k = 1`. -/
lemma amendedQk_one (n p : ℝ) :
    amendedQk 1 n p = 1 - (1 - (2 : ℝ) ^ (-((1 : ℕ) : ℝ))) ^ n * (1 - p) := by
  unfold amendedQk
  rw [Finset.Icc_self, Finset.prod_singleton]

/-- The closed `qk` at `k = 2`. -/
lemma amendedQk_two (n p : ℝ) :
    amendedQk 2 n p =
      (1 - (1 - (2 : ℝ) ^ (-((1 : ℕ) : ℝ))) ^ n * (1 - p)) *
      (1 - (1 - (2 : ℝ) ^ (-((2 : ℕ) : ℝ))) ^ n * (1 - p)) := by
  unfold amendedQk
  rw [show Finset.Icc (1 : ℕ) 2 = {1, 2} from by decide,
      Finset.prod_pair (by norm_num)]

/-- The spec's `qk` at `k = 1`. -/
lemma specQk_one (n p : ℝ) :
    specQk 1 n p =
      1 - (1 - (1 - (2 : ℝ) ^ (-((1 : ℕ) : ℝ))) ^ n) * (1 - p) := by
  unfold specQk
  rw [Finset.Icc_self, Finset.prod_singleton]

/-- The spec's `qk` at `k = 2`. -/
lemma specQk_two (n p : ℝ) :
    specQk 2 n p =
      (1 - (1 - (1 - (2 : ℝ) ^ (-((1 : ℕ) : ℝ))) ^ n) * (1 - p)) *
      (1 - (1 - (1 - (2 : ℝ) ^ (-((2 : ℕ) : ℝ))) ^ n) * (1 - p)) := by
  unfold specQk
  rw [show Finset.Icc (1 : ℕ) 2 = {1, 2} from by decide,
      Finset.prod_pair (by norm_num)]

/-- The closed `E` at `w = 1`, `n = 2`, `p = 1/2`. -/
lemma amendedE_val :
    amendedE 1 (((2 : ℕ) : ℕ) : ℝ) (1 / 2) = 63 / 256 := by
  unfold amendedE
  rw [Finset.Icc_self, Finset.sum_singleton, amendedQk_one, amendedQk_two]
  rw [two_rpow_neg_cast_one, two_rpow_neg_cast_two]
  norm_num [rpow_cast_two]

/-- The spec's `E` at `w = 1`, `n = 2`, `p = 1/2`. -/
lemma specE_val :
    specE 1 (((2 : ℕ) : ℕ) : ℝ) (1 / 2) = 35 / 256 := by
  unfold specE
  rw [Finset.Icc_self, Finset.sum_singleton, specQk_one, specQk_two]
  rw [two_rpow_neg_cast_one, two_rpow_neg_cast_two]
  norm_num [rpow_cast_two]

/-- The invariant `onesCount ≤ n` is preserved by any increment
sequence. -/
lemma ones_le_n_preserved (hash : HashFn) :
    ∀ (ops : List (Flow × ℕ × ℕ × ℚ)) (s : Sketch),
      onesCount s ≤ s.n →
      onesCount (applyIncs hash s ops) ≤ (applyIncs hash s ops).n := by
  intro ops
  induction ops with
  | nil => exact fun s h => h
  | cons o rest ih =>
    intro s h
    have h1 := (Increment_ones_step hash s o.1 o.2.1 o.2.2.1 o.2.2.2).1
    have h2 := (Increment_ones_step hash s o.1 o.2.1 o.2.2.1 o.2.2.2).2
    have hih := ih (Increment hash s o.1 o.2.1 o.2.2.1 o.2.2.2) (by omega)
    exact hih

end PMC

namespace PMC

/-! ### Claim theorems -/

/-- Claim C3: `New l m w` returns an error exactly when one of the three
dimensions is zero, and with all dimensions positive returns the sketch
carrying exactly those dimensions, an all-zero bitmap and `n = 0`. -/
theorem New_error_iff_zero_dim (l m w : ℕ) :
    ((∃ msg, New l m w = .error msg) ↔ l = 0 ∨ m = 0 ∨ w = 0) ∧
    (l ≠ 0 → m ≠ 0 → w ≠ 0 →
      New l m w =
        .ok { l := l, m := m, w := w, bitmap := fun _ => false, p := 0,
              n := 0 }) := by
  refine ⟨⟨?_, ?_⟩, ?_⟩
  · rintro ⟨msg, h⟩
    by_contra hc
    push_neg at hc
    simp [New, hc.1, hc.2.1, hc.2.2] at h
  · intro h
    unfold New
    split_ifs with h1 h2 h3
    · exact ⟨_, rfl⟩
    · exact ⟨_, rfl⟩
    · exact ⟨_, rfl⟩
    · rcases h with h | h | h
      exacts [absurd h h1, absurd h h2, absurd h h3]
  · intro h1 h2 h3
    simp [New, h1, h2, h3]

/-- Witness for C3: at `l = 3`, `m = 2`, `w = 1` the constructor
succeeds with exactly those dimensions. -/
theorem New_error_iff_zero_dim_witness :
    New 3 2 1 =
      .ok { l := 3, m := 2, w := 1, bitmap := fun _ => false, p := 0,
            n := 0 } :=
  (New_error_iff_zero_dim 3 2 1).2 (by decide) (by decide) (by decide)

/-- Claim C5: with `l > 0`, `getPos` lands in `[0, l)` and is
deterministic: identical arguments give identical results. -/
theorem getPos_range_deterministic (hash : HashFn) (s : Sketch) (f : Flow)
    (i j : ℕ) (h : 0 < s.l) :
    getPos hash s f i j < s.l ∧
    ∀ f2 i2 j2, f2 = f → i2 = i → j2 = j →
      getPos hash s f2 i2 j2 = getPos hash s f i j := by
  refine ⟨Nat.mod_lt _ h, ?_⟩
  rintro f2 i2 j2 rfl rfl rfl
  rfl

/-- Witness for C5 on the one-bit sketch. -/
theorem getPos_range_deterministic_witness :
    0 < sketchOne.l ∧ getPos hash0 sketchOne flow0 0 0 < sketchOne.l :=
  ⟨by decide,
   (getPos_range_deterministic hash0 sketchOne flow0 0 0 (by decide)).1⟩

/-- Claim C6: for `w > 0` and any generator state, `georand` applied to
the generator's next 64-bit value is its leading-zero count capped at
`w - 1`, hence lies in `[0, w)`. -/
theorem georand_clz_capped (w st : ℕ) (h : 0 < w) :
    georand w (xorshiftNext st) = min (clz64 (xorshiftNext st)) (w - 1) ∧
    georand w (xorshiftNext st) < w := by
  have hmin : georand w (xorshiftNext st) =
      min (clz64 (xorshiftNext st)) (w - 1) := by
    unfold georand
    rcases le_or_lt w (clz64 (xorshiftNext st)) with hge | hlt
    · rw [if_pos hge, min_eq_right (by omega)]
    · rw [if_neg (by omega), min_eq_left (by omega)]
  exact ⟨hmin, hmin ▸ lt_of_le_of_lt (min_le_right _ _) (by omega)⟩

/-- Witness for C6 at `w = 3` and generator state `0`. -/
theorem georand_clz_capped_witness :
    georand 3 (xorshiftNext 0) = min (clz64 (xorshiftNext 0)) (3 - 1) ∧
    georand 3 (xorshiftNext 0) < 3 :=
  georand_clz_capped 3 0 (by decide)

/-- Claim C4: `Increment` zeroes the fill-ratio cache, bumps `n` by
exactly one, leaves the dimensions alone, and either leaves the bitmap
unchanged (exactly when the uniform draw falls below `column / l`) or
sets the single addressed bit. -/
theorem Increment_state_change (hash : HashFn) (s : Sketch) (f : Flow)
    (rv gv : ℕ) (u : ℚ) :
    (Increment hash s f rv gv u).p = 0 ∧
    (Increment hash s f rv gv u).n = s.n + 1 ∧
    (Increment hash s f rv gv u).l = s.l ∧
    (Increment hash s f rv gv u).m = s.m ∧
    (Increment hash s f rv gv u).w = s.w ∧
    ((u < (georand s.w gv : ℚ) / (s.l : ℚ) ∧
        (Increment hash s f rv gv u).bitmap = s.bitmap) ∨
     (¬ u < (georand s.w gv : ℚ) / (s.l : ℚ) ∧
        (Increment hash s f rv gv u).bitmap =
          setBit s.bitmap
            (getPos hash s f (randMod s.m rv) (georand s.w gv)))) := by
  unfold Increment
  dsimp only
  split_ifs with hu
  · exact ⟨rfl, rfl, rfl, rfl, rfl, Or.inl ⟨hu, rfl⟩⟩
  · exact ⟨rfl, rfl, rfl, rfl, rfl, Or.inr ⟨hu, rfl⟩⟩

/-- Claim C7: across any sequence of `Increment` calls, bits only go
from unset to set, and the fill ratio `getP` never decreases. -/
theorem bits_monotone (hash : HashFn) (s : Sketch)
    (ops : List (Flow × ℕ × ℕ × ℚ)) :
    (∀ b, s.bitmap b = true → (applyIncs hash s ops).bitmap b = true) ∧
    getP s ≤ getP (applyIncs hash s ops) := by
  induction ops generalizing s with
  | nil => exact ⟨fun b hb => hb, le_refl _⟩
  | cons o rest ih =>
    have hstep : ∀ b, s.bitmap b = true →
        (Increment hash s o.1 o.2.1 o.2.2.1 o.2.2.2).bitmap b = true :=
      fun b hb => Increment_bitmap_mono hash s o.1 o.2.1 o.2.2.1 o.2.2.2 b hb
    have hl := Increment_l hash s o.1 o.2.1 o.2.2.1 o.2.2.2
    obtain ⟨ih1, ih2⟩ := ih (Increment hash s o.1 o.2.1 o.2.2.1 o.2.2.2)
    exact ⟨fun b hb => ih1 b (hstep b hb),
           le_trans (getP_mono_of_le s _ hl hstep) ih2⟩

/-- Witness for C7: one concrete increment on the one-bit sketch keeps
bit `0` set and does not lower the fill ratio. -/
theorem bits_monotone_witness :
    (applyIncs hash0 sketchOne [(flow0, 0, 0, 0)]).bitmap 0 = true ∧
    getP sketchOne ≤ getP (applyIncs hash0 sketchOne [(flow0, 0, 0, 0)]) :=
  ⟨(bits_monotone hash0 sketchOne [(flow0, 0, 0, 0)]).1 0 (by decide),
   (bits_monotone hash0 sketchOne [(flow0, 0, 0, 0)]).2⟩

/-- Claim C8: in every sketch state, `GetFillRate` is the set-bit count
over `l` scaled to a percentage, and lies in `[0, 100]`. -/
theorem GetFillRate_formula_bounds (s : Sketch) :
    GetFillRate s = (onesCount s : ℚ) / (s.l : ℚ) * 100 ∧
    0 ≤ GetFillRate s ∧ GetFillRate s ≤ 100 := by
  have hcard : onesCount s ≤ s.l := by
    unfold onesCount
    calc ((Finset.range s.l).filter (fun i => s.bitmap i = true)).card
        ≤ (Finset.range s.l).card := Finset.card_filter_le _ _
      _ = s.l := Finset.card_range _
  refine ⟨rfl, ?_, ?_⟩
  · unfold GetFillRate getP
    positivity
  · unfold GetFillRate getP
    rcases Nat.eq_zero_or_pos s.l with h0 | hpos
    · rw [h0]
      norm_num
    · have hc : (0 : ℚ) < (s.l : ℚ) := by exact_mod_cast hpos
      have hle : (onesCount s : ℚ) / (s.l : ℚ) ≤ 1 := by
        rw [div_le_one hc]
        exact_mod_cast hcard
      linarith

/-- Claim C10: each `Increment` adds at most one set bit while adding
exactly one observation, so from a fresh sketch the set-bit count never
exceeds `n`. -/
theorem ones_le_observations (hash : HashFn) (l m w : ℕ) (s : Sketch) :
    (∀ (t : Sketch) (f : Flow) (rv gv : ℕ) (u : ℚ),
        onesCount (Increment hash t f rv gv u) ≤ onesCount t + 1 ∧
        (Increment hash t f rv gv u).n = t.n + 1) ∧
    (New l m w = .ok s → ∀ ops,
        onesCount (applyIncs hash s ops) ≤ (applyIncs hash s ops).n) := by
  refine ⟨fun t f rv gv u => Increment_ones_step hash t f rv gv u, ?_⟩
  intro hNew ops
  obtain ⟨-, -, -, rfl⟩ := New_ok_elim l m w s hNew
  apply ones_le_n_preserved
  simp [onesCount]

/-- Witness for C10: two concrete increments on a fresh `New 4 2 2`
sketch leave at most `n` set bits. -/
theorem ones_le_observations_witness :
    New 4 2 2 = .ok sketchFresh ∧
    onesCount
        (applyIncs hash0 sketchFresh [(flow0, 0, 0, 0), (flow0, 1, 1, 0)]) ≤
      (applyIncs hash0 sketchFresh [(flow0, 0, 0, 0), (flow0, 1, 1, 0)]).n :=
  ⟨rfl, (ones_le_observations hash0 4 2 2 sketchFresh).2 rfl
    [(flow0, 0, 0, 0), (flow0, 1, 1, 0)]⟩

/-- Counterexample to claim C1 as stated: on the saturated one-bit
sketch the code's `getZSum` yields `0` (a fully set row contributes
nothing), while the spec's run-length sum says a fully set row
contributes `w`, yielding `1`. -/
theorem getZSum_spec_counterexample :
    getZSum hash0 sketchOne flow0 = 0 ∧
    specZ hash0 sketchOne flow0 = 1 ∧
    getZSum hash0 sketchOne flow0 ≠ specZ hash0 sketchOne flow0 := by
  refine ⟨?_, ?_, ?_⟩ <;> decide

/-- Claim C9: on a freshly constructed sketch with no observations,
the estimate of every flow key is exactly `0`: all rows are empty, so
the small-multiplicity branch computes `-2 * m * ln(m / m) = 0`. -/
theorem fresh_estimate_zero (hash : HashFn) (l m w : ℕ) (s : Sketch)
    (f : Flow) (hNew : New l m w = .ok s) : GetEstimate hash s f = 0 := by
  obtain ⟨hl, hm, hw, rfl⟩ := New_ok_elim l m w s hNew
  have hmR : (0 : ℝ) < (m : ℝ) := by exact_mod_cast Nat.pos_of_ne_zero hm
  have hgetP : getP { l := l, m := m, w := w,
                      bitmap := fun _ => false, p := 0, n := 0 } = 0 := by
    simp [getP, onesCount]
  have hk : getEmptyRows hash { l := l, m := m, w := w,
                                bitmap := fun _ => false, p := 0, n := 0 }
      f = m := by
    simp [getEmptyRows]
  rw [GetEstimate_eval]
  dsimp only
  rw [if_pos rfl, hgetP, hk]
  have hcond : (m : ℝ) / (1 - (((0 : ℚ) : ℚ) : ℝ)) > 0.3 * (m : ℝ) := by
    push_cast
    rw [sub_zero, div_one]
    linarith
  rw [if_pos hcond]
  have hone : (m : ℝ) / (1 - (((0 : ℚ) : ℚ) : ℝ)) / (m : ℝ) = 1 := by
    push_cast
    rw [sub_zero, div_one]
    field_simp
  rw [hone, Real.log_one, mul_zero, abs_zero]

/-- Witness for C9: the fresh `New 4 2 2` sketch estimates the empty
flow key to `0`. -/
theorem fresh_estimate_zero_witness :
    New 4 2 2 = .ok sketchFresh ∧
    GetEstimate hash0 sketchFresh flow0 = 0 :=
  ⟨rfl, fresh_estimate_zero hash0 4 2 2 sketchFresh flow0 rfl⟩

/-- Claim C2 (amended): with the fill-ratio cache either invalidated or
valid, `GetEstimate` returns the absolute value of
`-2*m*ln((k/(1-p))/m)` when `k/(1-p) > 0.3*m` and otherwise
`m * 2^(z/m) / φ(n,p)` with `φ(n,p) = 2^E(n,p)/n` and
`E(n,p) = Σ_{k=1}^{w} k*(qk(k,n,p) - qk(k+1,n,p))`, where the `qk`
factor is `1 - (1-2^-i)^n * (1-p)` — the power itself damped by `1-p`,
not its complement as the spec's wording has it. -/
theorem estimate_amended_formula (hash : HashFn) (s : Sketch) (f : Flow)
    (hp : s.p = 0 ∨ s.p = getP s) :
    GetEstimate hash s f = amendedEstimate hash s f := by
  have hpe : (if s.p = 0 then getP s else s.p) = getP s := by
    rcases hp with h | h
    · rw [if_pos h]
    · by_cases h0 : s.p = 0
      · rw [if_pos h0]
      · rw [if_neg h0, h]
  rw [GetEstimate_eval, amendedEstimate_eval, hpe, phi_eq_amendedPhi]

/-- Witness for C2 (amended) on the half-full sketch, whose cache is
invalidated. -/
theorem estimate_amended_formula_witness :
    sketchHalf.p = 0 ∧
    GetEstimate hash0 sketchHalf flow0 =
      amendedEstimate hash0 sketchHalf flow0 :=
  ⟨rfl, estimate_amended_formula hash0 sketchHalf flow0 (Or.inl rfl)⟩

/-- Counterexample to claim C2 as stated: on the half-full sketch the
general branch is taken, and the code's estimate `2 / 2^(63/256)`
differs from the spec-formula estimate `2 / 2^(35/256)` because the
spec's `qk` factor complements the power before damping it by `1 - p`. -/
theorem estimate_spec_counterexample :
    sketchHalf.p = 0 ∧
    GetEstimate hash0 sketchHalf flow0 ≠ specEstimate hash0 sketchHalf flow0 := by
  refine ⟨rfl, ?_⟩
  have hgetP : getP sketchHalf = 1 / 2 := by
    have h1 : onesCount sketchHalf = 1 := by decide
    unfold getP
    rw [h1, show sketchHalf.l = 2 from rfl]
    norm_num
  have hk0 : getEmptyRows hash0 sketchHalf flow0 = 0 := by decide
  have hz0 : getZSum hash0 sketchHalf flow0 = 0 := by decide
  have hpR : (((if sketchHalf.p = 0 then getP sketchHalf else sketchHalf.p) :
      ℚ) : ℝ) = 1 / 2 := by
    rw [show (if sketchHalf.p = 0 then getP sketchHalf else sketchHalf.p) =
          getP sketchHalf from if_pos rfl, hgetP]
    norm_num
  have hcond : ¬ (((0 : ℕ) : ℝ) / (1 - 1 / 2) >
      0.3 * ((sketchHalf.m : ℕ) : ℝ)) := by
    rw [show sketchHalf.m = 1 from rfl]
    norm_num
  have hpos63 : (0 : ℝ) < (2 : ℝ) ^ ((63 : ℝ) / 256) :=
    Real.rpow_pos_of_pos (by norm_num) _
  have hpos35 : (0 : ℝ) < (2 : ℝ) ^ ((35 : ℝ) / 256) :=
    Real.rpow_pos_of_pos (by norm_num) _
  have hcode : GetEstimate hash0 sketchHalf flow0 =
      2 / (2 : ℝ) ^ ((63 : ℝ) / 256) := by
    rw [GetEstimate_eval, hk0, hz0, hpR, if_neg hcond]
    rw [show sketchHalf.m = 1 from rfl, show sketchHalf.w = 1 from rfl,
        show sketchHalf.n = 2 from rfl]
    unfold phi
    rw [getE_eq_amendedE, amendedE_val]
    rw [abs_of_pos (by positivity)]
    rw [show ((0 : ℕ) : ℝ) / ((1 : ℕ) : ℝ) = 0 by norm_num, Real.rpow_zero]
    push_cast
    field_simp
  have hspec : specEstimate hash0 sketchHalf flow0 =
      2 / (2 : ℝ) ^ ((35 : ℝ) / 256) := by
    have hpR2 : ((getP sketchHalf : ℚ) : ℝ) = 1 / 2 := by
      rw [hgetP]
      norm_num
    rw [specEstimate_eval, hk0, hz0, hpR2, if_neg hcond]
    rw [show sketchHalf.m = 1 from rfl, show sketchHalf.w = 1 from rfl,
        show sketchHalf.n = 2 from rfl]
    unfold specPhi
    rw [specE_val]
    rw [abs_of_pos (by positivity)]
    rw [show ((0 : ℕ) : ℝ) / ((1 : ℕ) : ℝ) = 0 by norm_num, Real.rpow_zero]
    push_cast
    field_simp
  rw [hcode, hspec]
  have hlt : (2 : ℝ) ^ ((35 : ℝ) / 256) < (2 : ℝ) ^ ((63 : ℝ) / 256) :=
    (Real.rpow_lt_rpow_left_iff (by norm_num)).mpr (by norm_num)
  exact ne_of_lt (div_lt_div_of_pos_left (by norm_num) hpos35 hlt)

/-- Claim C1 (amended): `getZSum` sums, over the `m` rows, the smallest
column index at which the row's bit is unset, a row contributing `0`
(not `w`) when all of its `w` columns are set. -/
theorem getZSum_amended_runs (hash : HashFn) (s : Sketch) (f : Flow) :
    getZSum hash s f = ∑ i ∈ Finset.range s.m, amendedRunLength hash s f i := by
  unfold getZSum
  exact Finset.sum_congr rfl fun i _ => zRow_eq_amendedRunLength hash s f i

end PMC
